import Mathlib

/-!
Shallow embedding of `lightbulb/internal/di.py`.

The module contains:
  - `find_injectable_kwargs`: signature analysis discovering parameters
    suitable for dependency injection;
  - `LazyInjecting`: a wrapper class whose `__call__` resolves the
    injectable parameters from an ambient container and delegates, and
    whose `__get__` implements descriptor binding of a receiver;
  - a load-time switch (`LIGHTBULB_DI_DISABLED`) replacing `LazyInjecting`
    with a pass-through `FakeLazyInjecting`.

Python values are modelled generically: `α` is the type of evaluated
annotation values (`parameter.annotation` when not `empty`), `ν` the type
of runtime values (arguments, defaults, resolved dependencies), `ε` the
type of payloads of exceptions raised by external code.  Python `dict`s
(keyed by strings, insertion ordered) are association lists together with
`dictInsert`, which mirrors `d[k] = v`.
-/

/-- The kinds of `inspect.Parameter`. -/
inductive ParamKind where
  | positionalOnly
  | positionalOrKeyword
  | varPositional
  | keywordOnly
  | varKeyword
deriving DecidableEq, Repr

/-- One formal parameter of a signature, as produced by
`inspect.signature(func, eval_str=True).parameters`.  `ann` models
`parameter.annotation` (`none` is `inspect.Parameter.empty`), `default`
models `parameter.default` (`none` is `inspect.Parameter.empty`). -/
structure Param (α ν : Type) where
  name : String
  ann : Option α
  default : Option ν
  kind : ParamKind
deriving DecidableEq, Repr

/-- Python dict assignment `d[k] = v` on an insertion-ordered association
list: overwrite in place if the key is present, append otherwise. -/
def dictInsert {β : Type} (d : List (String × β)) (k : String) (v : β) :
    List (String × β) :=
  if k ∈ d.map Prod.fst then
    d.map (fun kv => if kv.1 = k then (k, v) else kv)
  else d ++ [(k, v)]

/-- The per-parameter test of the loop body of `find_injectable_kwargs`:
`none` corresponds to `continue`, `some (name, a)` to the assignment
`injectable_parameters[parameter.name] = parameter.annotation`. -/
def injectableEntry {α ν : Type} (passed_kwargs : List String)
    (p : Param α ν) : Option (String × α) :=
  match p.ann with
  | none => none
  | some a =>
    if p.default.isSome = true ∨ p.kind = ParamKind.positionalOnly ∨
        p.name ∈ passed_kwargs then
      none
    else some (p.name, a)

/-- Embedding of `find_injectable_kwargs(func, passed_args, passed_kwargs)`:
iterate over `[*parameters.values()][passed_args:]` and collect the
parameters that have an annotation, no default, are not positional-only
and were not passed as a keyword argument. -/
def find_injectable_kwargs {α ν : Type} (params : List (Param α ν))
    (passed_args : Nat) (passed_kwargs : List String) : List (String × α) :=
  List.foldl
    (fun d p =>
      match injectableEntry passed_kwargs p with
      | none => d
      | some na => dictInsert d na.1 na.2)
    [] (params.drop passed_args)

/-- A Python exception: either the `RuntimeError` raised by this module,
or an exception raised by external code (resolver or wrapped callable). -/
inductive Exc (ε : Type) where
  | runtimeError (msg : String)
  | raised (e : ε)
deriving DecidableEq, Repr

/-- An asynchronous callable as the wrapper sees it: a signature (what
`inspect.signature` returns for it) and a behaviour taking the positional
arguments and the keyword arguments and producing a value or raising. -/
structure Callable (α ε ν : Type) where
  sig : List (Param α ν)
  behavior : List ν → List (String × ν) → Except (Exc ε) ν

/-- Observable steps of one invocation of the wrapper, in order: the
signature analysis (recording the positional count and keyword names it
is given), each `await di_container.aget(type)`, and the final delegated
call (recording the positional arguments and keyword arguments it
receives). -/
inductive Event (α ν : Type) where
  | analyze (passed_args : Nat) (passed_kwargs : List String)
  | resolve (t : α)
  | invoke (args : List ν) (kwargs : List (String × ν))
deriving DecidableEq, Repr

/-- Whether an event is the delegated call of the wrapped callable. -/
def Event.isInvoke {α ν : Type} : Event α ν → Bool
  | .invoke _ _ => true
  | _ => false

/-- Embedding of the `LazyInjecting` wrapper state: the wrapped callable
`_func` and the optional bound receiver `_self`. -/
structure LazyInjecting (α ε ν : Type) where
  _func : Callable α ε ν
  _self : Option ν := none

/-- The ambient state the wrapper reads: the `_di_container` context
variable, `none` when unset. -/
structure DIState (α ε ν : Type) where
  di_container : Option (α → Except (Exc ε) ν)

/-- The outcome of one invocation: the wrapper after the call, the
ambient state after the call, the trace of observable steps, and the
returned value or raised exception. -/
structure CallResult (α ε ν : Type) where
  selfAfter : LazyInjecting α ε ν
  stateAfter : DIState α ε ν
  trace : List (Event α ν)
  result : Except (Exc ε) ν

/-- The sequential resolution loop
`for name, type in injectables.items(): new_kwargs[name] = await di_container.aget(type)`:
resolve each entry in order, stopping at the first raised exception. -/
def resolveLoop {α ε ν : Type} (c : α → Except (Exc ε) ν) :
    List (String × α) → List (String × ν) →
    List (Event α ν) × Except (Exc ε) (List (String × ν))
  | [], acc => ([], .ok acc)
  | nt :: rest, acc =>
    match c nt.2 with
    | .error e => ([.resolve nt.2], .error e)
    | .ok v =>
      let r := resolveLoop c rest (dictInsert acc nt.1 v)
      (.resolve nt.2 :: r.1, r.2)

/-- Embedding of `LazyInjecting.__call__`.  Copies the keyword arguments,
reads the ambient container (raising `RuntimeError` when unset), computes
the injectable set with positional count `len(args) + (self._self is not None)`,
resolves each injectable sequentially, and delegates with the receiver
prepended when bound.  The wrapper and ambient state are threaded through
explicitly to model any mutation the method could perform. -/
def LazyInjecting.call {α ε ν : Type} (w : LazyInjecting α ε ν)
    (st : DIState α ε ν) (args : List ν) (kwargs : List (String × ν)) :
    CallResult α ε ν :=
  let new_kwargs := List.foldl (fun acc kv => dictInsert acc kv.1 kv.2) [] kwargs
  match st.di_container with
  | none =>
    ⟨w, st, [],
      .error (.runtimeError
        "cannot prepare dependency injection as client not yet populated")⟩
  | some c =>
    let passed := args.length + (if w._self.isSome then 1 else 0)
    let passedKw := kwargs.map Prod.fst
    let injectables := find_injectable_kwargs w._func.sig passed passedKw
    let r := resolveLoop c injectables new_kwargs
    match r.2 with
    | .error e => ⟨w, st, .analyze passed passedKw :: r.1, .error e⟩
    | .ok nk =>
      let pos := match w._self with
        | some s => s :: args
        | none => args
      ⟨w, st, .analyze passed passedKw :: r.1 ++ [.invoke pos nk],
        w._func.behavior pos nk⟩

/-- Embedding of `LazyInjecting.__get__`: with an instance present return
a fresh wrapper bound to it, otherwise return the wrapper itself. -/
def LazyInjecting.get {α ε ν : Type} (w : LazyInjecting α ε ν)
    (inst? : Option ν) : LazyInjecting α ε ν :=
  match inst? with
  | some inst => ⟨w._func, some inst⟩
  | none => w

/-- Python `str.lower()`: lowercase every character. -/
def pyLower (s : String) : String := String.mk (s.data.map Char.toLower)

/-- `os.environ.get(key, dflt)` over an environment modelled as an
association list. -/
def envGet (env : List (String × String)) (key dflt : String) : String :=
  match env.lookup key with
  | some v => v
  | none => dflt

/-- The load-time disablement test:
`os.environ.get("LIGHTBULB_DI_DISABLED", "false").lower() == "true"`. -/
def lightbulbDiDisabled (env : List (String × String)) : Bool :=
  pyLower (envGet env "LIGHTBULB_DI_DISABLED" "false") == "true"

/-- What constructing the wrapper name yields after module load: either
the original callable unchanged (`FakeLazyInjecting.__new__` returns
`func`) or a genuine `LazyInjecting` instance. -/
inductive WrapperConstruction (α ε ν : Type) where
  | passthrough (func : Callable α ε ν)
  | injecting (w : LazyInjecting α ε ν)

/-- Constructing `LazyInjecting(func)` as seen by client code, accounting
for the module-load branch that rebinds the name to `FakeLazyInjecting`
when the environment flag is set. -/
def makeLazyInjecting {α ε ν : Type} (env : List (String × String))
    (func : Callable α ε ν) : WrapperConstruction α ε ν :=
  if lightbulbDiDisabled env then .passthrough func
  else .injecting ⟨func, none⟩

/-! ### Concrete instances used by the witnesses -/

/-- A sample signature: `f(a: Int, b: Str = d, *, c: Widget)`. -/
def sampleSig : List (Param String Nat) :=
  [⟨"a", some "Int", none, ParamKind.positionalOrKeyword⟩,
   ⟨"b", some "Str", some 0, ParamKind.positionalOrKeyword⟩,
   ⟨"c", some "Widget", none, ParamKind.keywordOnly⟩]

/-- The keyword-only parameter `c: Widget` of `sampleSig`. -/
def sampleParamC : Param String Nat :=
  ⟨"c", some "Widget", none, ParamKind.keywordOnly⟩

/-- A sample callable over `sampleSig`. -/
def sampleFunc : Callable String String Nat :=
  ⟨sampleSig, fun pos kw => Except.ok (pos.length + kw.length)⟩

/-- An environment with the disablement flag set (case-insensitively). -/
def envDisabled : List (String × String) :=
  [("LIGHTBULB_DI_DISABLED", "TRUE")]

/-- An environment with the disablement flag set to an unrecognized
value. -/
def envOther : List (String × String) :=
  [("LIGHTBULB_DI_DISABLED", "1")]


/-- An unbound wrapper around `sampleFunc`. -/
def wSample : LazyInjecting String String Nat := ⟨sampleFunc, none⟩

/-- A wrapper around `sampleFunc` bound to the receiver `7`. -/
def wBound : LazyInjecting String String Nat := ⟨sampleFunc, some 7⟩

/-- A resolver that always succeeds, returning the length of the
requested type name. -/
def cLen : String → Except (Exc String) Nat :=
  fun t => Except.ok t.length

/-- A resolver that always fails. -/
def cErr : String → Except (Exc String) Nat :=
  fun _ => Except.error (Exc.raised "no provider registered")

/-- A signature with a variadic-keyword parameter:
`g(a: Int, **rest: Widget)`. -/
def varSig : List (Param String Nat) :=
  [⟨"a", some "Int", none, ParamKind.positionalOrKeyword⟩,
   ⟨"rest", some "Widget", none, ParamKind.varKeyword⟩]

/-- An unbound wrapper around a callable with signature `varSig`. -/
def wVar : LazyInjecting String String Nat :=
  ⟨⟨varSig, fun _ _ => Except.ok 0⟩, none⟩


/-! ### Helper lemmas about dictionaries and the analyzer -/

lemma dictInsert_of_not_mem {β : Type} {d : List (String × β)} {k : String}
    (v : β) (h : k ∉ d.map Prod.fst) : dictInsert d k v = d ++ [(k, v)] := by
  simp [dictInsert, h]

lemma foldl_dictInsert_eq_append {β : Type} (l acc : List (String × β))
    (hn : (l.map Prod.fst).Nodup)
    (hd : ∀ k ∈ l.map Prod.fst, k ∉ acc.map Prod.fst) :
    List.foldl (fun a kv => dictInsert a kv.1 kv.2) acc l = acc ++ l := by
  induction l generalizing acc with
  | nil => simp
  | cons kv rest ih =>
    have hk : kv.1 ∉ acc.map Prod.fst := hd kv.1 (by simp)
    have hstep : dictInsert acc kv.1 kv.2 = acc ++ [kv] := by
      rw [dictInsert_of_not_mem kv.2 hk]
    have hn' : (rest.map Prod.fst).Nodup := by
      simpa using hn.of_cons
    have hkv : kv.1 ∉ rest.map Prod.fst := by
      have := hn
      simp only [List.map_cons, List.nodup_cons] at this
      exact this.1
    have hd' : ∀ k ∈ rest.map Prod.fst, k ∉ (acc ++ [kv]).map Prod.fst := by
      intro k hkmem
      have hka : k ∉ acc.map Prod.fst :=
        hd k (by rw [List.map_cons]; exact List.mem_cons_of_mem _ hkmem)
      intro hmem
      rw [List.map_append] at hmem
      rcases List.mem_append.mp hmem with h1 | h2
      · exact hka h1
      · simp only [List.map_cons, List.map_nil, List.mem_singleton] at h2
        exact hkv (h2 ▸ hkmem)
    calc List.foldl (fun a kv => dictInsert a kv.1 kv.2) acc (kv :: rest)
        = List.foldl (fun a kv => dictInsert a kv.1 kv.2) (acc ++ [kv]) rest := by
          simp [hstep]
      _ = (acc ++ [kv]) ++ rest := ih (acc ++ [kv]) hn' hd'
      _ = acc ++ kv :: rest := by simp

lemma find_foldl_eq_filterMap {α ν : Type} (K : List String)
    (l : List (Param α ν)) (acc : List (String × α)) :
    List.foldl
      (fun d p =>
        match injectableEntry K p with
        | none => d
        | some na => dictInsert d na.1 na.2)
      acc l =
      List.foldl (fun d (na : String × α) => dictInsert d na.1 na.2) acc
        (l.filterMap (injectableEntry K)) := by
  induction l generalizing acc with
  | nil => simp
  | cons p rest ih =>
    cases hfp : injectableEntry K p with
    | none => simp [List.filterMap_cons, hfp, ih]
    | some x => simp [List.filterMap_cons, hfp, ih]

lemma injectableEntry_eq_some_iff {α ν : Type} {K : List String}
    {p : Param α ν} {n : String} {a : α} :
    injectableEntry K p = some (n, a) ↔
      p.ann = some a ∧ n = p.name ∧ p.default = none ∧
        p.kind ≠ ParamKind.positionalOnly ∧ p.name ∉ K := by
  obtain ⟨n0, ann0, d0, k0⟩ := p
  cases ann0 with
  | none => simp [injectableEntry]
  | some b =>
    cases d0 with
    | some dv => simp [injectableEntry]
    | none =>
      simp only [injectableEntry, Option.isSome_none, Bool.false_eq_true,
        false_or]
      by_cases hk : k0 = ParamKind.positionalOnly
      · simp [hk]
      · by_cases hK : n0 ∈ K
        · simp [hk, hK]
        · rw [if_neg (by simp [hk, hK] :
            ¬(k0 = ParamKind.positionalOnly ∨ n0 ∈ K))]
          simp only [Option.some.injEq, Prod.mk.injEq]
          constructor
          · rintro ⟨h1, h2⟩
            exact ⟨h2, h1.symm, trivial, hk, hK⟩
          · rintro ⟨h1, h2, -, -, -⟩
            exact ⟨h2.symm, h1⟩

lemma injectableEntry_name {α ν : Type} {K : List String} {p : Param α ν}
    {na : String × α} (h : injectableEntry K p = some na) : na.1 = p.name := by
  obtain ⟨n, a⟩ := na
  exact (injectableEntry_eq_some_iff.mp h).2.1

lemma entry_keys_sublist {α ν : Type} (K : List String)
    (l : List (Param α ν)) :
    List.Sublist ((l.filterMap (injectableEntry K)).map Prod.fst)
      (l.map Param.name) := by
  induction l with
  | nil => simp
  | cons p rest ih =>
    cases h : injectableEntry K p with
    | none =>
      simp only [List.filterMap_cons, h, List.map_cons]
      exact ih.cons p.name
    | some na =>
      simp only [List.filterMap_cons, h, List.map_cons]
      rw [injectableEntry_name h]
      exact ih.cons₂ p.name

lemma find_injectable_kwargs_eq {α ν : Type} (params : List (Param α ν))
    (N : Nat) (K : List String) (hnd : (params.map Param.name).Nodup) :
    find_injectable_kwargs params N K =
      (params.drop N).filterMap (injectableEntry K) := by
  unfold find_injectable_kwargs
  rw [find_foldl_eq_filterMap]
  have hsub : List.Sublist
      (((params.drop N).filterMap (injectableEntry K)).map Prod.fst)
      (params.map Param.name) :=
    (entry_keys_sublist K (params.drop N)).trans
      ((List.drop_sublist N params).map Param.name)
  have hn : (((params.drop N).filterMap (injectableEntry K)).map Prod.fst).Nodup :=
    hnd.sublist hsub
  have hres := foldl_dictInsert_eq_append
    ((params.drop N).filterMap (injectableEntry K)) [] hn (by simp)
  simpa using hres

lemma mem_find_iff {α ν : Type} {params : List (Param α ν)} {N : Nat}
    {K : List String} (hnd : (params.map Param.name).Nodup) {n : String}
    {a : α} :
    (n, a) ∈ find_injectable_kwargs params N K ↔
      ∃ p ∈ params.drop N, injectableEntry K p = some (n, a) := by
  rw [find_injectable_kwargs_eq params N K hnd]
  exact List.mem_filterMap

lemma mem_drop_iff_not_mem_take {α ν : Type} {params : List (Param α ν)}
    {N : Nat} (hnd : (params.map Param.name).Nodup) {p : Param α ν}
    (hp : p ∈ params) : p ∈ params.drop N ↔ p ∉ params.take N := by
  have hsplit : params.take N ++ params.drop N = params :=
    List.take_append_drop N params
  have hpn : params.Nodup := hnd.of_map
  have hnodup : (params.take N ++ params.drop N).Nodup := by
    rw [hsplit]; exact hpn
  have hdis : (params.take N).Disjoint (params.drop N) :=
    (List.nodup_append.mp hnodup).2.2
  constructor
  · intro hd ht
    exact hdis ht hd
  · intro ht
    have hp2 : p ∈ params.take N ++ params.drop N := by rw [hsplit]; exact hp
    rcases List.mem_append.mp hp2 with h | h
    · exact absurd h ht
    · exact h

/-! ### Helper lemmas about the resolution loop and the call -/

lemma resolveLoop_trace_resolve {α ε ν : Type} (c : α → Except (Exc ε) ν)
    (l : List (String × α)) (acc : List (String × ν)) :
    ∀ ev ∈ (resolveLoop c l acc).1, ∃ t, ev = Event.resolve t := by
  induction l generalizing acc with
  | nil => simp [resolveLoop]
  | cons nt rest ih =>
    intro ev hev
    cases hc : c nt.2 with
    | error e =>
      simp only [resolveLoop, hc, List.mem_singleton] at hev
      exact ⟨nt.2, hev⟩
    | ok v =>
      simp only [resolveLoop, hc, List.mem_cons] at hev
      rcases hev with h | h
      · exact ⟨nt.2, h⟩
      · exact ih (dictInsert acc nt.1 v) ev h

lemma resolveLoop_total {α ε ν : Type} (r : α → ν) (l : List (String × α))
    (acc : List (String × ν)) :
    resolveLoop (fun t => (Except.ok (r t) : Except (Exc ε) ν)) l acc =
      (l.map (fun nt => Event.resolve nt.2),
       Except.ok (List.foldl (fun a nt => dictInsert a nt.1 (r nt.2)) acc l)) := by
  induction l generalizing acc with
  | nil => rfl
  | cons nt rest ih =>
    simp only [resolveLoop]
    rw [ih (dictInsert acc nt.1 (r nt.2))]
    simp

lemma resolveLoop_cases {α ε ν : Type} (c : α → Except (Exc ε) ν)
    (l : List (String × α)) (acc : List (String × ν)) :
    ((∀ nt ∈ l, ∃ v, c nt.2 = Except.ok v) ∧
      ∃ nk, resolveLoop c l acc =
        (l.map (fun nt => Event.resolve nt.2), Except.ok nk)) ∨
    (∃ pre nt post e, l = pre ++ nt :: post ∧
      (∀ m ∈ pre, ∃ v, c m.2 = Except.ok v) ∧ c nt.2 = Except.error e ∧
      resolveLoop c l acc =
        ((pre ++ [nt]).map (fun m => Event.resolve m.2), Except.error e)) := by
  induction l generalizing acc with
  | nil => exact Or.inl ⟨by simp, acc, rfl⟩
  | cons nt rest ih =>
    cases hc : c nt.2 with
    | error e =>
      refine Or.inr ⟨[], nt, rest, e, by simp, by simp, hc, ?_⟩
      simp [resolveLoop, hc]
    | ok v =>
      rcases ih (dictInsert acc nt.1 v) with ⟨hall, nk, heq⟩ |
        ⟨pre, m, post, e, hl, hpre, herr, heq⟩
      · refine Or.inl ⟨?_, nk, ?_⟩
        · intro m hm
          rcases List.mem_cons.mp hm with h | h
          · exact ⟨v, by rw [h]; exact hc⟩
          · exact hall m h
        · simp [resolveLoop, hc, heq]
      · refine Or.inr ⟨nt :: pre, m, post, e, by rw [hl]; simp, ?_, herr, ?_⟩
        · intro m' hm'
          rcases List.mem_cons.mp hm' with h | h
          · exact ⟨v, by rw [h]; exact hc⟩
          · exact hpre m' h
        · simp [resolveLoop, hc, heq]

lemma dictInsert_keys {β : Type} (d : List (String × β)) (k : String) (v : β) :
    (dictInsert d k v).map Prod.fst =
      if k ∈ d.map Prod.fst then d.map Prod.fst
      else d.map Prod.fst ++ [k] := by
  unfold dictInsert
  by_cases h : k ∈ d.map Prod.fst
  · rw [if_pos h, if_pos h, List.map_map]
    apply List.map_congr_left
    intro kv _
    by_cases hkv : kv.1 = k
    · simp [Function.comp, hkv]
    · simp [Function.comp, hkv]
  · rw [if_neg h, if_neg h, List.map_append]
    rfl

lemma foldl_dictInsert_keys_subset {β : Type} (l : List (String × β)) :
    ∀ acc : List (String × β),
      ∀ k ∈ (List.foldl (fun a kv => dictInsert a kv.1 kv.2) acc l).map Prod.fst,
        k ∈ acc.map Prod.fst ∨ k ∈ l.map Prod.fst := by
  induction l with
  | nil => intro acc k hk; exact Or.inl hk
  | cons kv rest ih =>
    intro acc k hk
    rw [List.foldl_cons] at hk
    rcases ih (dictInsert acc kv.1 kv.2) k hk with h | h
    · rw [dictInsert_keys] at h
      by_cases hmem : kv.1 ∈ acc.map Prod.fst
      · rw [if_pos hmem] at h
        exact Or.inl h
      · rw [if_neg hmem] at h
        rcases List.mem_append.mp h with h1 | h2
        · exact Or.inl h1
        · rw [List.mem_singleton] at h2
          exact Or.inr (by rw [List.map_cons, h2]; exact List.mem_cons_self _ _)
    · exact Or.inr (by rw [List.map_cons]; exact List.mem_cons_of_mem _ h)

lemma foldl_dictInsert_resolved {α ν : Type} (r : α → ν)
    (l : List (String × α)) (acc : List (String × ν)) :
    List.foldl (fun a nt => dictInsert a nt.1 (r nt.2)) acc l =
      List.foldl (fun a kv => dictInsert a kv.1 kv.2) acc
        (l.map (fun nt => (nt.1, r nt.2))) := by
  induction l generalizing acc with
  | nil => rfl
  | cons nt rest ih => simp [ih]

lemma find_keys_not_passed {α ν : Type} {params : List (Param α ν)} {N : Nat}
    {K : List String} (hnd : (params.map Param.name).Nodup) {k : String}
    (hk : k ∈ (find_injectable_kwargs params N K).map Prod.fst) : k ∉ K := by
  rw [find_injectable_kwargs_eq params N K hnd] at hk
  rcases List.mem_map.mp hk with ⟨na, hna, hfst⟩
  rcases List.mem_filterMap.mp hna with ⟨p, -, hent⟩
  obtain ⟨n, a⟩ := na
  have hchar := injectableEntry_eq_some_iff.mp hent
  rw [← hfst]
  show n ∉ K
  rw [hchar.2.1]
  exact hchar.2.2.2.2

lemma find_keys_nodup {α ν : Type} (params : List (Param α ν)) (N : Nat)
    (K : List String) (hnd : (params.map Param.name).Nodup) :
    ((find_injectable_kwargs params N K).map Prod.fst).Nodup := by
  rw [find_injectable_kwargs_eq params N K hnd]
  exact hnd.sublist ((entry_keys_sublist K (params.drop N)).trans
    ((List.drop_sublist N params).map Param.name))


/-! ### The claims -/

/-- C1: for every callable, every supplied positional-argument count `N`
and every supplied keyword-name set `K`, the analyzer result contains a
parameter (mapped to its declared annotation value) iff the parameter is
not among the first `N` formal parameters, carries a type annotation
value, has no default, is not positional-only, and its name is not in
`K`.  The hypothesis that parameter names are distinct reflects Python
signatures, where parameter names are unique. -/
theorem claim_C1 {α ν : Type} (params : List (Param α ν)) (N : Nat)
    (K : List String) (hnd : (params.map Param.name).Nodup)
    (p : Param α ν) (hp : p ∈ params) (a : α) :
    (p.name, a) ∈ find_injectable_kwargs params N K ↔
      p ∉ params.take N ∧ p.ann = some a ∧ p.default = none ∧
        p.kind ≠ ParamKind.positionalOnly ∧ p.name ∉ K := by
  rw [mem_find_iff hnd]
  constructor
  · rintro ⟨q, hq, hent⟩
    have hqname : q.name = p.name := (injectableEntry_name hent).symm
    have hqp : q = p :=
      List.inj_on_of_nodup_map hnd (List.mem_of_mem_drop hq) hp hqname
    subst hqp
    have hchar := injectableEntry_eq_some_iff.mp hent
    exact ⟨(mem_drop_iff_not_mem_take hnd hp).mp hq, hchar.1, hchar.2.2.1,
      hchar.2.2.2.1, hchar.2.2.2.2⟩
  · rintro ⟨htake, hann, hdef, hkind, hK⟩
    exact ⟨p, (mem_drop_iff_not_mem_take hnd hp).mpr htake,
      injectableEntry_eq_some_iff.mpr ⟨hann, rfl, hdef, hkind, hK⟩⟩

/-- Witness for C1 on `sampleSig` with one positional argument and no
keywords: `c` is injectable. -/
theorem claim_C1_witness :
    ("c", "Widget") ∈ find_injectable_kwargs sampleSig 1 [] :=
  (claim_C1 sampleSig 1 [] (by decide) sampleParamC (by decide)
    "Widget").mpr ⟨by decide, rfl, rfl, by decide, by decide⟩

/-- C2: when the ambient resolver handle is unset, the call raises the
configuration `RuntimeError` and the trace is empty: no signature
analysis, no resolver interaction, and no invocation of the wrapped
callable (so none of its side effects happen), while the wrapper and the
ambient state are untouched. -/
theorem claim_C2 {α ε ν : Type} (w : LazyInjecting α ε ν) (args : List ν)
    (kwargs : List (String × ν)) :
    w.call ⟨none⟩ args kwargs =
      ⟨w, ⟨none⟩, [],
        Except.error (Exc.runtimeError
          "cannot prepare dependency injection as client not yet populated")⟩ :=
  rfl

/-- C5: descriptor access with an instance returns a new wrapper holding
the same wrapped callable and bound to that instance, while access with
no instance returns the very same wrapper. -/
theorem claim_C5 {α ε ν : Type} (w : LazyInjecting α ε ν) (i : ν) :
    w.get (some i) = ⟨w._func, some i⟩ ∧ w.get none = w :=
  ⟨rfl, rfl⟩

/-- C3: when the environment flag `LIGHTBULB_DI_DISABLED` lowercases to
`"true"` at module load, constructing the wrapper yields the original
callable itself (pass-through); for any other value, and when the flag is
absent, construction yields a genuine unbound `LazyInjecting` wrapper. -/
theorem claim_C3 {α ε ν : Type} (env : List (String × String))
    (func : Callable α ε ν) :
    ((∃ v, env.lookup "LIGHTBULB_DI_DISABLED" = some v ∧ pyLower v = "true") →
      makeLazyInjecting env func = WrapperConstruction.passthrough func) ∧
    ((∀ v, env.lookup "LIGHTBULB_DI_DISABLED" = some v → pyLower v ≠ "true") →
      makeLazyInjecting env func =
        WrapperConstruction.injecting ⟨func, none⟩) := by
  constructor
  · rintro ⟨v, hv, hlow⟩
    have hflag : lightbulbDiDisabled env = true := by
      unfold lightbulbDiDisabled envGet
      rw [hv, hlow]
      decide
    unfold makeLazyInjecting
    rw [hflag]
    simp
  · intro hno
    have hflag : lightbulbDiDisabled env = false := by
      unfold lightbulbDiDisabled envGet
      cases hv : env.lookup "LIGHTBULB_DI_DISABLED" with
      | none => decide
      | some v =>
        rw [beq_eq_false_iff_ne]
        exact hno v hv
    unfold makeLazyInjecting
    rw [hflag]
    simp

/-- Witness for C3: with the flag `"TRUE"` construction is the identity
on the callable; with `"1"` or with an empty environment it wraps. -/
theorem claim_C3_witness :
    makeLazyInjecting envDisabled sampleFunc =
        WrapperConstruction.passthrough sampleFunc ∧
    makeLazyInjecting envOther sampleFunc =
        WrapperConstruction.injecting ⟨sampleFunc, none⟩ ∧
    makeLazyInjecting [] sampleFunc =
        WrapperConstruction.injecting ⟨sampleFunc, none⟩ :=
  ⟨(claim_C3 envDisabled sampleFunc).1 ⟨"TRUE", rfl, by decide⟩,
   (claim_C3 envOther sampleFunc).2 (fun v hv => by
     have h1 : envOther.lookup "LIGHTBULB_DI_DISABLED" = some "1" := by decide
     rw [h1] at hv
     injection hv with hv
     subst hv
     decide),
   (claim_C3 [] sampleFunc).2 (fun v hv => by
     simp [List.lookup] at hv)⟩

/-- C8: the analyzer is deterministic: recomputing the injectable set for
the same callable and the same supplied-argument description yields the
identical mapping, and the result depends on the supplied keyword names
only through set membership (two descriptions of the same keyword-name
set give the same mapping). -/
theorem claim_C8 {α ν : Type} (params : List (Param α ν)) (N : Nat)
    (K1 K2 : List String) (h : ∀ s, s ∈ K1 ↔ s ∈ K2) :
    find_injectable_kwargs params N K1 = find_injectable_kwargs params N K1 ∧
    find_injectable_kwargs params N K1 = find_injectable_kwargs params N K2 := by
  refine ⟨rfl, ?_⟩
  have hent : ∀ p : Param α ν, injectableEntry K1 p = injectableEntry K2 p := by
    intro p
    obtain ⟨n0, ann0, d0, k0⟩ := p
    cases ann0 with
    | none => rfl
    | some b =>
      exact if_congr (or_congr Iff.rfl (or_congr Iff.rfl (h n0))) rfl rfl
  unfold find_injectable_kwargs
  simp only [hent]

/-- Witness for C8: the same keyword-name set described by two different
lists yields the same injectable set for `sampleSig`. -/
theorem claim_C8_witness :
    find_injectable_kwargs sampleSig 0 ["c"] =
        find_injectable_kwargs sampleSig 0 ["c"] ∧
    find_injectable_kwargs sampleSig 0 ["c"] =
        find_injectable_kwargs sampleSig 0 ["c", "c"] :=
  claim_C8 sampleSig 0 ["c"] ["c", "c"] (fun s => by simp)

/-- C9: the wrapper fields are never mutated and the ambient handle is
never written: an invocation returns the wrapper and the ambient state
exactly as they were, and descriptor access either returns the wrapper
itself or a freshly constructed wrapper, leaving the original fields in
place. -/
theorem claim_C9 {α ε ν : Type} (w : LazyInjecting α ε ν)
    (st : DIState α ε ν) (args : List ν) (kwargs : List (String × ν))
    (inst? : Option ν) :
    (w.call st args kwargs).selfAfter = w ∧
    (w.call st args kwargs).stateAfter = st ∧
    (w.get inst? = w ∨
      ∃ i, inst? = some i ∧ w.get inst? = ⟨w._func, some i⟩) := by
  obtain ⟨cont⟩ := st
  refine ⟨?_, ?_, ?_⟩
  · cases cont with
    | none => rfl
    | some c =>
      rcases hres : resolveLoop c
          (find_injectable_kwargs w._func.sig
            (args.length + (if w._self.isSome then 1 else 0))
            (kwargs.map Prod.fst))
          (List.foldl (fun acc kv => dictInsert acc kv.1 kv.2) [] kwargs)
        with ⟨tr, res⟩
      cases res with
      | error e => simp [LazyInjecting.call, hres]
      | ok nk => simp [LazyInjecting.call, hres]
  · cases cont with
    | none => rfl
    | some c =>
      rcases hres : resolveLoop c
          (find_injectable_kwargs w._func.sig
            (args.length + (if w._self.isSome then 1 else 0))
            (kwargs.map Prod.fst))
          (List.foldl (fun acc kv => dictInsert acc kv.1 kv.2) [] kwargs)
        with ⟨tr, res⟩
      cases res with
      | error e => simp [LazyInjecting.call, hres]
      | ok nk => simp [LazyInjecting.call, hres]
  · cases inst? with
    | none => exact Or.inl rfl
    | some i => exact Or.inr ⟨i, rfl, rfl⟩

/-- C4: every invocation with an active resolver hands the analyzer a
positional count of `len(args) + 1` when a receiver is bound (`len(args)`
when unbound) together with the passed keyword names, and any delegated
call receives the bound receiver prepended as first positional argument
ahead of the visible positional arguments. -/
theorem claim_C4 {α ε ν : Type} (w : LazyInjecting α ε ν)
    (c : α → Except (Exc ε) ν) (args : List ν) (kwargs : List (String × ν)) :
    (w.call ⟨some c⟩ args kwargs).trace.head? =
      some (Event.analyze (args.length + (if w._self.isSome then 1 else 0))
        (kwargs.map Prod.fst)) ∧
    (∀ pos nk, Event.invoke pos nk ∈ (w.call ⟨some c⟩ args kwargs).trace →
      pos = match w._self with
        | some r => r :: args
        | none => args) := by
  rcases hres : resolveLoop c
      (find_injectable_kwargs w._func.sig
        (args.length + (if w._self.isSome then 1 else 0))
        (kwargs.map Prod.fst))
      (List.foldl (fun acc kv => dictInsert acc kv.1 kv.2) [] kwargs)
    with ⟨tr, res⟩
  have htr : ∀ ev ∈ tr, ∃ t, ev = Event.resolve t := by
    intro ev hev
    apply resolveLoop_trace_resolve c
      (find_injectable_kwargs w._func.sig
        (args.length + (if w._self.isSome then 1 else 0))
        (kwargs.map Prod.fst))
      (List.foldl (fun acc kv => dictInsert acc kv.1 kv.2) [] kwargs) ev
    rw [hres]
    exact hev
  cases res with
  | error e =>
    constructor
    · simp [LazyInjecting.call, hres]
    · intro pos nk hmem
      simp only [LazyInjecting.call, hres] at hmem
      rcases List.mem_cons.mp hmem with h | h
      · exact absurd h (by simp)
      · rcases htr _ h with ⟨t, ht⟩
        exact absurd ht (by simp)
  | ok nk0 =>
    constructor
    · simp [LazyInjecting.call, hres]
    · intro pos nk hmem
      simp only [LazyInjecting.call, hres] at hmem
      rcases List.mem_cons.mp hmem with h | h
      · exact absurd h (by simp)
      · rcases List.mem_append.mp h with h2 | h2
        · rcases htr _ h2 with ⟨t, ht⟩
          exact absurd ht (by simp)
        · rw [List.mem_singleton] at h2
          injection h2

/-- Witness for C4 on the bound wrapper `wBound` called with one
positional argument: the analyzer sees positional count 2, and the
delegate receives the receiver `7` first. -/
theorem claim_C4_witness :
    (wBound.call ⟨some cLen⟩ [1] []).trace.head? =
        some (Event.analyze 2 []) ∧
    ([7, 1] : List Nat) = (match wBound._self with
      | some r => r :: [1]
      | none => [1]) :=
  ⟨(claim_C4 wBound cLen [1] []).1,
   (claim_C4 wBound cLen [1] []).2 [7, 1] [("c", 6)] (by decide)⟩

/-- C6: with an active resolver, an invocation either resolves every
injectable parameter and then invokes the wrapped callable exactly once
with the merged keyword arguments (its outcome, value or error, is the
call outcome unchanged), or the first failing resolution aborts the call
before any invocation and the resolver's error propagates unchanged; no
other outcome exists. -/
theorem claim_C6 {α ε ν : Type} (w : LazyInjecting α ε ν)
    (c : α → Except (Exc ε) ν) (args : List ν) (kwargs : List (String × ν)) :
    ((∀ nt ∈ find_injectable_kwargs w._func.sig
          (args.length + (if w._self.isSome then 1 else 0))
          (kwargs.map Prod.fst),
        ∃ v, c nt.2 = Except.ok v) ∧
      ∃ nk,
        (w.call ⟨some c⟩ args kwargs).trace.countP Event.isInvoke = 1 ∧
        Event.invoke
            (match w._self with
              | some s => s :: args
              | none => args) nk ∈
          (w.call ⟨some c⟩ args kwargs).trace ∧
        (w.call ⟨some c⟩ args kwargs).result =
          w._func.behavior
            (match w._self with
              | some s => s :: args
              | none => args) nk) ∨
    (∃ pre nt post e,
      find_injectable_kwargs w._func.sig
          (args.length + (if w._self.isSome then 1 else 0))
          (kwargs.map Prod.fst) = pre ++ nt :: post ∧
      (∀ m ∈ pre, ∃ v, c m.2 = Except.ok v) ∧
      c nt.2 = Except.error e ∧
      (w.call ⟨some c⟩ args kwargs).result = Except.error e ∧
      (w.call ⟨some c⟩ args kwargs).trace.countP Event.isInvoke = 0) := by
  rcases resolveLoop_cases c
      (find_injectable_kwargs w._func.sig
        (args.length + (if w._self.isSome then 1 else 0))
        (kwargs.map Prod.fst))
      (List.foldl (fun acc kv => dictInsert acc kv.1 kv.2) [] kwargs)
    with ⟨hall, nk, heq⟩ | ⟨pre, nt, post, e, hl, hpre, herr, heq⟩
  · left
    refine ⟨hall, nk, ?_, ?_, ?_⟩
    · simp only [LazyInjecting.call, heq]
      have hmap0 : (List.map (fun nt => Event.resolve nt.2)
          (find_injectable_kwargs w._func.sig
            (args.length + (if w._self.isSome then 1 else 0))
            (kwargs.map Prod.fst))).countP (Event.isInvoke (ν := ν)) = 0 := by
        apply List.countP_eq_zero.mpr
        intro ev hev
        rcases List.mem_map.mp hev with ⟨m, -, hm⟩
        rw [← hm]
        simp [Event.isInvoke]
      simp [List.countP_cons, List.countP_append, List.countP_nil, hmap0,
        Event.isInvoke]
    · simp only [LazyInjecting.call, heq]
      simp
    · simp only [LazyInjecting.call, heq]
  · right
    refine ⟨pre, nt, post, e, hl, hpre, herr, ?_, ?_⟩
    · simp only [LazyInjecting.call, heq]
    · simp only [LazyInjecting.call, heq]
      apply List.countP_eq_zero.mpr
      intro ev hev
      rcases List.mem_cons.mp hev with h | h
      · rw [h]; simp [Event.isInvoke]
      · rcases List.mem_map.mp h with ⟨m, -, hm⟩
        rw [← hm]
        simp [Event.isInvoke]

/-- Witness for C6: with a resolver that always succeeds the wrapped
callable is invoked exactly once, and with one that always fails it is
never invoked. -/
theorem claim_C6_witness :
    (wSample.call ⟨some cLen⟩ [1] []).trace.countP Event.isInvoke = 1 ∧
    (wSample.call ⟨some cErr⟩ [1] []).trace.countP Event.isInvoke = 0 := by
  constructor
  · rcases claim_C6 wSample cLen [1] [] with ⟨-, nk, h1, -, -⟩ |
      ⟨pre, nt, post, e, -, -, herr, -, -⟩
    · exact h1
    · exact absurd herr (by simp [cLen])
  · rcases claim_C6 wSample cErr [1] [] with ⟨hall, -⟩ |
      ⟨pre, nt, post, e, -, -, -, -, h0⟩
    · rcases hall ("c", "Widget") (by decide) with ⟨v, hv⟩
      exact absurd hv (by simp [cErr])
    · exact h0

/-- C7: within one invocation whose resolutions all succeed, the trace of
resolver requests is exactly the annotation values of the eligible
parameters in signature declaration order, one strictly after another,
and each resolved value is stored into the working keyword-argument map
under the parameter's name before the single delegated call.  The
distinct-names hypothesis reflects Python signatures. -/
theorem claim_C7 {α ε ν : Type} (w : LazyInjecting α ε ν) (r : α → ν)
    (args : List ν) (kwargs : List (String × ν))
    (hnd : (w._func.sig.map Param.name).Nodup) :
    (w.call ⟨some (fun t => (Except.ok (r t) : Except (Exc ε) ν))⟩ args
        kwargs).trace =
      Event.analyze (args.length + (if w._self.isSome then 1 else 0))
          (kwargs.map Prod.fst) ::
        ((w._func.sig.drop
            (args.length + (if w._self.isSome then 1 else 0))).filterMap
          (injectableEntry (kwargs.map Prod.fst))).map
            (fun nt => Event.resolve nt.2) ++
        [Event.invoke
          (match w._self with
            | some s => s :: args
            | none => args)
          (List.foldl (fun a nt => dictInsert a nt.1 (r nt.2))
            (List.foldl (fun acc kv => dictInsert acc kv.1 kv.2) [] kwargs)
            ((w._func.sig.drop
                (args.length + (if w._self.isSome then 1 else 0))).filterMap
              (injectableEntry (kwargs.map Prod.fst))))] := by
  have hfind := find_injectable_kwargs_eq w._func.sig
    (args.length + (if w._self.isSome then 1 else 0)) (kwargs.map Prod.fst) hnd
  have hloop := resolveLoop_total (ε := ε) r
    (find_injectable_kwargs w._func.sig
      (args.length + (if w._self.isSome then 1 else 0)) (kwargs.map Prod.fst))
    (List.foldl (fun acc kv => dictInsert acc kv.1 kv.2) [] kwargs)
  rw [hfind] at hloop
  simp only [LazyInjecting.call, hfind, hloop]

/-- Witness for C7: the unbound sample wrapper called with one positional
argument resolves exactly the type of `c` and delegates with `c` bound to
the resolved value. -/
theorem claim_C7_witness :
    (wSample.call ⟨some (fun t => (Except.ok (t.length) :
        Except (Exc String) Nat))⟩ [1] []).trace =
      [Event.analyze 1 [], Event.resolve "Widget",
       Event.invoke [1] [("c", 6)]] := by
  rw [claim_C7 wSample (fun t => t.length) [1] [] (by decide)]
  decide

/-- C10: a variadic parameter (variable-positional or variable-keyword
kind) that carries an annotation value, lies past the skipped positional
count and whose name was not passed as a keyword is included in the
injectable set — the kind filter excludes only the positional-only kind —
and in any delegated call of a successful invocation it is supplied as an
ordinary keyword argument bound to its resolved value. -/
theorem claim_C10 {α ν : Type} (params : List (Param α ν)) (N : Nat)
    (K : List String) (hnd : (params.map Param.name).Nodup)
    (p : Param α ν) (hp : p ∈ params.drop N)
    (hk : p.kind = ParamKind.varPositional ∨ p.kind = ParamKind.varKeyword)
    (a : α) (ha : p.ann = some a) (hdef : p.default = none)
    (hK : p.name ∉ K) :
    (p.name, a) ∈ find_injectable_kwargs params N K ∧
    (∀ {ε : Type} (w : LazyInjecting α ε ν) (r : α → ν) (args : List ν)
        (kwargs : List (String × ν)),
      w._func.sig = params →
      args.length + (if w._self.isSome then 1 else 0) = N →
      kwargs.map Prod.fst = K →
      ∀ pos nk,
        Event.invoke pos nk ∈
          (w.call ⟨some (fun t => (Except.ok (r t) : Except (Exc ε) ν))⟩
            args kwargs).trace →
        (p.name, r a) ∈ nk) := by
  have hkind : p.kind ≠ ParamKind.positionalOnly := by
    rcases hk with h | h <;> rw [h] <;> decide
  have hmem : (p.name, a) ∈ find_injectable_kwargs params N K :=
    (mem_find_iff hnd).mpr
      ⟨p, hp, injectableEntry_eq_some_iff.mpr ⟨ha, rfl, hdef, hkind, hK⟩⟩
  refine ⟨hmem, ?_⟩
  intro ε w r args kwargs hsig hN hkw pos nk hmemT
  have hloop := resolveLoop_total (ε := ε) r
    (find_injectable_kwargs w._func.sig
      (args.length + (if w._self.isSome then 1 else 0)) (kwargs.map Prod.fst))
    (List.foldl (fun acc kv => dictInsert acc kv.1 kv.2) [] kwargs)
  simp only [LazyInjecting.call, hloop] at hmemT
  rcases List.mem_cons.mp hmemT with h | h
  · exact absurd h (by simp)
  · rcases List.mem_append.mp h with h2 | h2
    · rcases List.mem_map.mp h2 with ⟨m, -, hm⟩
      exact Event.noConfusion hm
    · rw [List.mem_singleton] at h2
      injection h2 with hpos hnk
      subst hnk
      rw [hsig, hN, hkw]
      rw [foldl_dictInsert_resolved]
      have hkeys : ((find_injectable_kwargs params N K).map
          (fun nt => (nt.1, r nt.2))).map Prod.fst =
          (find_injectable_kwargs params N K).map Prod.fst := by
        rw [List.map_map]
        rfl
      rw [foldl_dictInsert_eq_append _ _
        (by rw [hkeys]; exact find_keys_nodup params N K hnd)
        (by
          intro k hkmem hkacc
          rw [hkeys] at hkmem
          have hknotK : k ∉ K := find_keys_not_passed hnd hkmem
          rcases foldl_dictInsert_keys_subset kwargs [] k hkacc with h3 | h3
          · exact absurd h3 (by simp)
          · rw [hkw] at h3
            exact hknotK h3)]
      apply List.mem_append.mpr
      right
      exact List.mem_map.mpr ⟨(p.name, a), hmem, rfl⟩

/-- Witness for C10: the variadic-keyword parameter `rest: Widget` of
`varSig` is injectable past one positional argument, and the delegate of
a successful call receives it as a keyword argument bound to the resolved
value. -/
theorem claim_C10_witness :
    ("rest", "Widget") ∈ find_injectable_kwargs varSig 1 [] ∧
    ("rest", 6) ∈ [("rest", (6 : Nat))] :=
  have h := claim_C10 varSig 1 [] (by decide)
    ⟨"rest", some "Widget", none, ParamKind.varKeyword⟩ (by decide)
    (Or.inr rfl) "Widget" rfl rfl (by decide)
  ⟨h.1, h.2 wVar (fun s => s.length) [5] [] rfl rfl rfl [5] [("rest", 6)]
    (by decide)⟩
